import Mathlib

/-!
Shallow embedding of `src/queue.rs`: a fixed-capacity, stack-allocated FIFO
ring buffer `ArrayQueue<T, const C: usize>` with fields `data : [MaybeUninit<T>; C]`,
`head`, `tail`, `len`, and operations `new`, `is_empty`, `len`, `clear`, `push`,
`pop` plus the `Drop` implementation that calls `clear`.

Modelling conventions:
* `data : [MaybeUninit<T>; C]` becomes `data : List (Option T)` of length `C`;
  a slot holding `none` models an uninitialized (vacant) slot, `some v` a live one.
* Every operation that can panic (index out of bounds, `%` by zero) or hit
  undefined behaviour (`assume_init` / `assume_init_drop` on a vacant slot,
  which would read or double-destroy uninitialized memory) is modelled as an
  `Option`-returning function; `none` is the crash/UB outcome.
* `clear` additionally returns the list of `(index, value)` pairs whose
  destructor (`assume_init_drop`) it ran, in execution order, so that
  "each live element is destroyed exactly once" is a statement about its result.
  Running the destructor of a slot marks it vacant (`none`) in the model, so a
  double destroy of the same slot is detected as UB.
-/

/-- The `ArrayQueue<T, const C: usize>` struct of `src/queue.rs`. -/
structure ArrayQueue (T : Type) (C : Nat) where
  data : List (Option T)
  head : Nat
  tail : Nat
  len : Nat

/-- `ArrayQueue::new`: all slots uninitialized, `head = tail = len = 0`. -/
def ArrayQueue.new (T : Type) (C : Nat) : ArrayQueue T C :=
  ArrayQueue.mk (List.replicate C none) 0 0 0

/-- `ArrayQueue::is_empty`: `self.len == 0`. -/
def ArrayQueue.isEmpty {T : Type} {C : Nat} (q : ArrayQueue T C) : Bool :=
  q.len == 0

/-- `ArrayQueue::push`.  Source:
`if self.len() == C { return Err(value); }
 self.head %= C; self.data[self.head].write(value); self.head += 1; self.len += 1; Ok(())`.
`self.head %= C` with `C = 0` is a division by zero panic, and `self.data[i]`
with `i` out of bounds is an index panic; both are the `none` outcome. -/
def ArrayQueue.push {T : Type} {C : Nat} (q : ArrayQueue T C) (v : T) :
    Option (Except T Unit × ArrayQueue T C) :=
  if q.len = C then
    some (Except.error v, q)
  else if C = 0 then
    none
  else if q.head % C < q.data.length then
    some (Except.ok (),
      ArrayQueue.mk (q.data.set (q.head % C) (some v)) (q.head % C + 1) q.tail (q.len + 1))
  else
    none

/-- `ArrayQueue::pop`.  Source:
`if self.is_empty() { return None; }
 self.tail %= C; let res = replace(&mut self.data[self.tail], MaybeUninit::uninit());
 self.tail += 1; self.len -= 1; unsafe { Some(res.assume_init()) }`.
`self.tail %= C` with `C = 0` panics; `assume_init` on a vacant slot is UB. -/
def ArrayQueue.pop {T : Type} {C : Nat} (q : ArrayQueue T C) :
    Option (Option T × ArrayQueue T C) :=
  if q.isEmpty then
    some (none, q)
  else if C = 0 then
    none
  else
    match q.data.get? (q.tail % C) with
    | some (some v) =>
        some (some v,
          ArrayQueue.mk (q.data.set (q.tail % C) none) q.head (q.tail % C + 1) (q.len - 1))
    | _ => none

/-- The loop `for i in lo..lo+n { self.data[i].assume_init_drop(); }` used by
`ArrayQueue::clear`: destroys `n` consecutive slots starting at `lo`, returning
the `(index, value)` pairs destroyed in order and the storage afterwards
(each destroyed slot becomes vacant).  Indexing out of bounds or destroying an
already-vacant slot is the `none` (panic/UB) outcome. -/
def dropRange {T : Type} : List (Option T) → Nat → Nat →
    Option (List (Nat × T) × List (Option T))
  | data, _, 0 => some ([], data)
  | data, lo, n + 1 =>
    match data.get? lo with
    | some (some v) =>
      match dropRange (data.set lo none) (lo + 1) n with
      | some (ps, d) => some ((lo, v) :: ps, d)
      | none => none
    | _ => none

/-- `ArrayQueue::clear`.  Source:
`if self.is_empty() { return; }
 let end = if self.tail < self.head { self.head } else { C };
 for i in self.tail..end { self.data[i].assume_init_drop(); }
 if self.tail >= self.head { for i in 0..self.head { self.data[i].assume_init_drop(); } }
 self.head = 0; self.tail = 0; self.len = 0;`. -/
def ArrayQueue.clear {T : Type} {C : Nat} (q : ArrayQueue T C) :
    Option (List (Nat × T) × ArrayQueue T C) :=
  if q.isEmpty then
    some ([], q)
  else
    match dropRange q.data q.tail ((if q.tail < q.head then q.head else C) - q.tail) with
    | some (ps1, d1) =>
      if q.head ≤ q.tail then
        match dropRange d1 0 q.head with
        | some (ps2, d2) => some (ps1 ++ ps2, ArrayQueue.mk d2 0 0 0)
        | none => none
      else
        some (ps1, ArrayQueue.mk d1 0 0 0)
    | none => none

/-- `impl Drop for ArrayQueue`: `fn drop(&mut self) { self.clear(); }`. -/
def ArrayQueue.drop {T : Type} {C : Nat} (q : ArrayQueue T C) :
    Option (List (Nat × T) × ArrayQueue T C) :=
  q.clear

/-- Physical index of the `k`-th live element (counting from the front of the
queue): the circular range starts at `tail mod C`. -/
def ArrayQueue.slotIdx {T : Type} {C : Nat} (q : ArrayQueue T C) (k : Nat) : Nat :=
  (q.tail % C + k) % C

/-- The contents of the live slots in FIFO order, as the slots' raw
(`Option`-tagged) contents. -/
def ArrayQueue.liveList {T : Type} {C : Nat} (q : ArrayQueue T C) : List (Option T) :=
  (List.range q.len).map (fun k => (q.data.get? (q.slotIdx k)).getD none)

/-- Push a whole sequence of values; `none` if any push is rejected (or panics),
so success means every single push succeeded. -/
def ArrayQueue.pushAll {T : Type} {C : Nat} : ArrayQueue T C → List T →
    Option (ArrayQueue T C)
  | q, [] => some q
  | q, v :: vs =>
    match ArrayQueue.push q v with
    | some (Except.ok _, q') => ArrayQueue.pushAll q' vs
    | _ => none

/-- Pop `n` times; `none` if any pop returns the empty marker (or panics),
so success returns the `n` popped values in order. -/
def ArrayQueue.popN {T : Type} {C : Nat} : ArrayQueue T C → Nat →
    Option (List T × ArrayQueue T C)
  | q, 0 => some ([], q)
  | q, n + 1 =>
    match ArrayQueue.pop q with
    | some (some v, q') =>
      match ArrayQueue.popN q' n with
      | some (vs, q'') => some (v :: vs, q'')
      | none => none
    | _ => none

/-- A queue operation: a push of a given value, or a pop. -/
inductive Op (T : Type) where
  | push : T → Op T
  | pop : Op T

/-- Run a sequence of operations, counting successful pushes and successful
pops: returns `(final queue, #pushes that returned Ok, #pops that returned Some)`.
A panic during any operation is the `none` outcome. -/
def runOps {T : Type} {C : Nat} : ArrayQueue T C → List (Op T) →
    Option (ArrayQueue T C × Nat × Nat)
  | q, [] => some (q, 0, 0)
  | q, Op.push v :: ops =>
    match ArrayQueue.push q v with
    | some (Except.ok _, q') => (runOps q' ops).map (fun r => (r.1, r.2.1 + 1, r.2.2))
    | some (Except.error _, q') => runOps q' ops
    | none => none
  | q, Op.pop :: ops =>
    match ArrayQueue.pop q with
    | some (some _, q') => (runOps q' ops).map (fun r => (r.1, r.2.1, r.2.2 + 1))
    | some (none, q') => runOps q' ops
    | none => none

/-- Representation invariant of a queue state, indexed by the abstract list `L`
of its live values in FIFO order.  It packages: storage has length `C`; `len`
is the number of live values and is at most `C`; the raw `head`/`tail` counters
never exceed `C`; a non-empty queue has been pushed into since the last reset,
so `head > 0`; the counter congruence `head ≡ tail + len (mod C)`; the `k`-th
live value sits at physical slot `(tail % C + k) % C`; and every other slot is
vacant. -/
def ArrayQueue.Inv {T : Type} {C : Nat} (q : ArrayQueue T C) (L : List T) : Prop :=
  q.data.length = C ∧
  q.len = L.length ∧
  q.len ≤ C ∧
  q.head ≤ C ∧
  q.tail ≤ C ∧
  (0 < q.len → 0 < q.head) ∧
  q.head % C = (q.tail + q.len) % C ∧
  (∀ k, k < q.len → q.data.get? (q.slotIdx k) = some (L.get? k)) ∧
  (∀ i, i < C → (∀ k, k < q.len → q.slotIdx k ≠ i) → q.data.get? i = some none)

/-- States reachable from a freshly constructed queue by (non-crashing)
`push`/`pop`/`clear` calls. -/
inductive Reachable (T : Type) (C : Nat) : ArrayQueue T C → Prop where
  | new : Reachable T C (ArrayQueue.new T C)
  | push : ∀ (q : ArrayQueue T C) (v : T) (r : Except T Unit) (q' : ArrayQueue T C),
      Reachable T C q → ArrayQueue.push q v = some (r, q') → Reachable T C q'
  | pop : ∀ (q : ArrayQueue T C) (r : Option T) (q' : ArrayQueue T C),
      Reachable T C q → ArrayQueue.pop q = some (r, q') → Reachable T C q'
  | clear : ∀ (q : ArrayQueue T C) (ps : List (Nat × T)) (q' : ArrayQueue T C),
      Reachable T C q → ArrayQueue.clear q = some (ps, q') → Reachable T C q'

/-! ### Arithmetic helpers -/

/-- If `a ≡ b (mod C)` and `b` exceeds `a` by less than `3C`, then `b` is
`a`, `a + C` or `a + 2C`. -/
theorem modCases {C a b : Nat} (hab : a ≤ b) (hb : b ≤ a + (C + C))
    (h : a % C = b % C) : b = a ∨ b = a + C ∨ b = a + (C + C) := by
  rcases Nat.eq_zero_or_pos C with hC | hC
  · omega
  · have hdvd : C ∣ b - a := (Nat.modEq_iff_dvd' hab).mp h
    obtain ⟨k, hk⟩ := hdvd
    have hk2 : k ≤ 2 := by
      by_contra hgt
      push_neg at hgt
      have : C * 3 ≤ C * k := Nat.mul_le_mul_left C hgt
      omega
    have : k = 0 ∨ k = 1 ∨ k = 2 := by omega
    rcases this with h0 | h1 | h2
    · subst h0; omega
    · subst h1; omega
    · subst h2; omega

/-- Symmetric version of `modCases` for `a, b ≤ 2C`. -/
theorem modCases5 {C a b : Nat} (ha : a ≤ C + C) (hb : b ≤ C + C)
    (h : a % C = b % C) :
    a = b ∨ a = b + C ∨ b = a + C ∨ a = b + (C + C) ∨ b = a + (C + C) := by
  rcases Nat.le_total a b with hab | hab
  · have := modCases hab (by omega) h
    omega
  · have := modCases hab (by omega) h.symm
    omega

/-- Cancellation: `t + k₁ ≡ t + k₂ (mod C)` with `k₁, k₂ < C` forces `k₁ = k₂`. -/
theorem add_mod_cancel_lt {C t k1 k2 : Nat} (h1 : k1 < C) (h2 : k2 < C)
    (h : (t + k1) % C = (t + k2) % C) : k1 = k2 := by
  have : k1 % C = k2 % C := Nat.ModEq.add_left_cancel' t h
  rwa [Nat.mod_eq_of_lt h1, Nat.mod_eq_of_lt h2] at this

/-! ### List helpers -/

/-- `get?` of `replicate`. -/
theorem get?_replicate {α : Type} (a : α) (n i : Nat) :
    (List.replicate n a).get? i = if i < n then some a else none := by
  simp [List.get?_eq_getElem?, List.getElem?_replicate]

/-- `get?` of `range'` (step 1). -/
theorem get?_range' : ∀ (n s i : Nat),
    (List.range' s n).get? i = if i < n then some (s + i) else none
  | 0, _, _ => by simp [List.range']
  | n + 1, s, 0 => by simp [List.range']
  | n + 1, s, i + 1 => by
    have ih := get?_range' n (s + 1) i
    simp only [List.range', List.get?_cons_succ, ih]
    by_cases hi : i < n
    · simp only [if_pos hi, if_pos (by omega : i + 1 < n + 1)]
      congr 1
      omega
    · simp only [if_neg hi, if_neg (by omega : ¬ i + 1 < n + 1)]

/-- `(range n).map f` equals any list `l` of length `n` whose `i`-th entry is
`f i`. -/
theorem range_map_eq {α : Type} {f : Nat → α} {n : Nat} {l : List α}
    (hlen : l.length = n) (hl : ∀ i, i < n → l.get? i = some (f i)) :
    (List.range n).map f = l := by
  apply List.ext
  intro i
  by_cases hi : i < n
  · rw [List.get?_map, List.get?_range hi, hl i hi]
    rfl
  · have h1 : (List.range n).get? i = none := by
      rw [List.get?_eq_none, List.length_range]
      omega
    have h2 : l.get? i = none := by
      rw [List.get?_eq_none]
      omega
    rw [List.get?_map, h1, h2]
    rfl

/-- `(range L.length).map (L.get? ·) = L.map some`. -/
theorem range_map_get? {α : Type} : ∀ (L : List α),
    (List.range L.length).map (fun k => L.get? k) = L.map some
  | [] => rfl
  | a :: L => by
    rw [List.length_cons, List.range_succ_eq_map, List.map_cons, List.map_map,
      List.map_cons]
    congr 1
    have : ((fun k => (a :: L).get? k) ∘ Nat.succ) = fun k => L.get? k := by
      funext k
      simp [Function.comp]
    rw [this, range_map_get? L]

/-! ### The drop loop -/

/-- Specification of the destroy loop: if the `n` slots `lo, …, lo+n-1` all
hold values (the `j`-th holding the `j`-th entry of `l`), the loop succeeds,
destroys exactly those index/value pairs in order, and leaves those slots
vacant and every other slot untouched. -/
theorem dropRange_spec {T : Type} :
    ∀ (n : Nat) (data : List (Option T)) (lo : Nat) (l : List T),
    l.length = n →
    (∀ j, j < n → data.get? (lo + j) = some (l.get? j)) →
    ∃ ps d', dropRange data lo n = some (ps, d') ∧
      ps.map Prod.fst = List.range' lo n ∧
      ps.map Prod.snd = l ∧
      d'.length = data.length ∧
      ∀ i, d'.get? i = if lo ≤ i ∧ i < lo + n then some none else data.get? i
  | 0, data, lo, l, hlen, _ => by
    have : l = [] := List.length_eq_zero.mp hlen
    subst this
    refine ⟨[], data, rfl, rfl, rfl, rfl, ?_⟩
    intro i
    rw [if_neg (by omega)]
  | n + 1, data, lo, l, hlen, h => by
    match l, hlen with
    | v :: l', hlen =>
      have h0 : data.get? lo = some (some v) := by
        have := h 0 (by omega)
        simpa using this
      have hlo : lo < data.length := by
        by_contra hge
        rw [List.get?_eq_none.mpr (by omega)] at h0
        exact Option.noConfusion h0
      have hrec : ∀ j, j < n → (data.set lo none).get? (lo + 1 + j) = some (l'.get? j) := by
        intro j hj
        rw [List.get?_set_ne _ _ (by omega)]
        have := h (j + 1) (by omega)
        rw [show lo + 1 + j = lo + (j + 1) by omega]
        simpa using this
      obtain ⟨ps, d', hdrop, hfst, hsnd, hd'len, hget⟩ :=
        dropRange_spec n (data.set lo none) (lo + 1) l' (by simpa using hlen) hrec
      refine ⟨(lo, v) :: ps, d', ?_, ?_, ?_, ?_, ?_⟩
      · simp only [dropRange, h0, hdrop]
      · rw [List.map_cons, hfst, List.range'_succ]
      · rw [List.map_cons, hsnd]
      · rw [hd'len, List.length_set]
      · intro i
        rw [hget i]
        by_cases hin : lo + 1 ≤ i ∧ i < lo + 1 + n
        · rw [if_pos hin, if_pos (by omega)]
        · rw [if_neg hin]
          by_cases hieq : i = lo
          · subst hieq
            rw [if_pos (by omega), List.get?_set_eq, h0]
            rfl
          · rw [List.get?_set_ne _ _ (by omega), if_neg (by omega)]

/-! ### Basic facts about the operations -/

/-- A freshly constructed queue satisfies the invariant with no live values. -/
theorem inv_new (T : Type) (C : Nat) : (ArrayQueue.new T C).Inv [] := by
  refine ⟨by simp [ArrayQueue.new], rfl, by simp [ArrayQueue.new], by simp [ArrayQueue.new],
    by simp [ArrayQueue.new], by simp [ArrayQueue.new], rfl, ?_, ?_⟩
  · intro k hk
    simp [ArrayQueue.new] at hk
  · intro i hi _
    simp only [ArrayQueue.new]
    rw [get?_replicate, if_pos hi]

/-- `push` on a full queue: immediate rejection, queue returned unchanged. -/
theorem push_full {T : Type} {C : Nat} (q : ArrayQueue T C) (v : T) (h : q.len = C) :
    q.push v = some (Except.error v, q) := by
  simp [ArrayQueue.push, h]

/-- `pop` on an empty queue: the empty marker, queue returned unchanged. -/
theorem pop_empty {T : Type} {C : Nat} (q : ArrayQueue T C) (h : q.len = 0) :
    q.pop = some (none, q) := by
  simp [ArrayQueue.pop, ArrayQueue.isEmpty, h]

/-- `clear` on an empty queue: early return, queue unchanged (head/tail kept). -/
theorem clear_empty {T : Type} {C : Nat} (q : ArrayQueue T C) (h : q.len = 0) :
    q.clear = some ([], q) := by
  simp [ArrayQueue.clear, ArrayQueue.isEmpty, h]

/-- `slotIdx` of a literal state. -/
theorem slotIdx_mk {T : Type} {C : Nat} (d : List (Option T)) (h t l k : Nat) :
    (ArrayQueue.mk d h t l : ArrayQueue T C).slotIdx k = (t % C + k) % C :=
  rfl

/-- The front of the queue sits at slot `tail % C`. -/
theorem slotIdx_zero {T : Type} {C : Nat} (q : ArrayQueue T C) :
    q.slotIdx 0 = q.tail % C := by
  unfold ArrayQueue.slotIdx
  rw [Nat.add_zero, Nat.mod_mod_of_dvd _ dvd_rfl]

/-- Distinct in-range live positions occupy distinct slots. -/
theorem slotIdx_inj {T : Type} {C : Nat} (q : ArrayQueue T C) {k1 k2 : Nat}
    (h1 : k1 < C) (h2 : k2 < C) (h : q.slotIdx k1 = q.slotIdx k2) : k1 = k2 :=
  add_mod_cancel_lt h1 h2 h

/-- `push` on a non-full queue appends the value at the back. -/
theorem push_spec {T : Type} {C : Nat} (q : ArrayQueue T C) (L : List T) (v : T)
    (hInv : q.Inv L) (hlt : q.len < C) :
    ∃ q', q.push v = some (Except.ok (), q') ∧ q'.Inv (L ++ [v]) := by
  obtain ⟨hdl, hlenL, hlen, hhead, htail, hpos, hmod, hlive, hvac⟩ := hInv
  have hC : 0 < C := by omega
  have hh : q.head % C < C := Nat.mod_lt _ hC
  have hsh : q.slotIdx q.len = q.head % C := by
    unfold ArrayQueue.slotIdx
    rw [Nat.mod_add_mod]
    exact hmod.symm
  refine ⟨ArrayQueue.mk (q.data.set (q.head % C) (some v)) (q.head % C + 1) q.tail
    (q.len + 1), ?_, ?_⟩
  · simp only [ArrayQueue.push]
    rw [if_neg (by omega), if_neg (by omega), if_pos (by rw [hdl]; exact hh)]
  · dsimp only [ArrayQueue.Inv]
    refine ⟨by simp [List.length_set, hdl], by simp [hlenL], by omega, by omega,
      htail, by omega, ?_, ?_, ?_⟩
    · show (q.head % C + 1) % C = (q.tail + (q.len + 1)) % C
      have e1 : q.tail + (q.len + 1) = q.tail + q.len + 1 := by omega
      rw [Nat.mod_add_mod, e1]
      exact Nat.ModEq.add_right 1 hmod
    · intro k hk
      rw [slotIdx_mk]
      have hks : (q.tail % C + k) % C = q.slotIdx k := rfl
      rw [hks]
      rcases Nat.lt_or_ge k q.len with hklt | hkge
      · have hne : q.head % C ≠ q.slotIdx k := by
          intro he
          have : q.len = k := slotIdx_inj q (by omega) (by omega) (hsh.trans he)
          omega
        show (q.data.set (q.head % C) (some v)).get? (q.slotIdx k) = some ((L ++ [v]).get? k)
        rw [List.get?_set_ne _ _ hne, hlive k hklt,
          List.get?_append (by omega : k < L.length)]
      · have hkeq : k = q.len := by omega
        subst hkeq
        rw [hsh]
        obtain ⟨o, ho⟩ : ∃ o, q.data.get? (q.head % C) = some o := by
          cases ho : q.data.get? (q.head % C) with
          | none =>
            rw [List.get?_eq_none] at ho
            omega
          | some o => exact ⟨o, rfl⟩
        rw [List.get?_set_eq, ho, hlenL, List.get?_concat_length]
        rfl
    · intro i hi hni
      have hih : q.head % C ≠ i := by
        have := hni q.len (by omega)
        rw [slotIdx_mk] at this
        rw [← hsh]
        exact this
      show (q.data.set (q.head % C) (some v)).get? i = some none
      rw [List.get?_set_ne _ _ hih]
      refine hvac i hi ?_
      intro k hk
      have := hni k (by omega)
      rwa [slotIdx_mk] at this

/-- `pop` on a non-empty queue removes and returns the front value. -/
theorem pop_spec {T : Type} {C : Nat} (q : ArrayQueue T C) (v : T) (L' : List T)
    (hInv : q.Inv (v :: L')) :
    ∃ q', q.pop = some (some v, q') ∧ q'.Inv L' := by
  obtain ⟨hdl, hlenL, hlen, hhead, htail, hpos, hmod, hlive, hvac⟩ := hInv
  have hlen0 : q.len = L'.length + 1 := by simpa using hlenL
  have hC : 0 < C := by omega
  have ht : q.tail % C < C := Nat.mod_lt _ hC
  have h0 : q.data.get? (q.tail % C) = some (some v) := by
    have h := hlive 0 (by omega)
    rw [slotIdx_zero] at h
    simpa using h
  have hshift : ∀ k : Nat, ((q.tail % C + 1) % C + k) % C = q.slotIdx (k + 1) := by
    intro k
    unfold ArrayQueue.slotIdx
    rw [Nat.mod_add_mod]
    have e : q.tail % C + 1 + k = q.tail % C + (k + 1) := by omega
    rw [e]
  refine ⟨ArrayQueue.mk (q.data.set (q.tail % C) none) q.head (q.tail % C + 1)
    (q.len - 1), ?_, ?_⟩
  · have hne : q.isEmpty = false := by
      simp [ArrayQueue.isEmpty, hlen0]
    simp only [ArrayQueue.pop, hne, Bool.false_eq_true, if_false, h0]
    rw [if_neg (by omega)]
  · dsimp only [ArrayQueue.Inv]
    refine ⟨by simp [List.length_set, hdl], by omega, by omega, hhead, by omega,
      fun h => hpos (by omega), ?_, ?_, ?_⟩
    · have e1 : q.tail % C + 1 + (q.len - 1) = q.tail % C + q.len := by omega
      rw [e1, Nat.mod_add_mod]
      exact hmod
    · intro k hk
      rw [slotIdx_mk, hshift k]
      have hne : q.tail % C ≠ q.slotIdx (k + 1) := by
        rw [← slotIdx_zero q]
        intro he
        have : 0 = k + 1 := slotIdx_inj q (by omega) (by omega) he
        omega
      rw [List.get?_set_ne _ _ hne]
      have h := hlive (k + 1) (by omega)
      simpa using h
    · intro i hi hni
      by_cases hit : i = q.tail % C
      · subst hit
        rw [List.get?_set_eq, h0]
        rfl
      · rw [List.get?_set_ne _ _ (by omega : q.tail % C ≠ i)]
        refine hvac i hi ?_
        intro k hk
        cases k with
        | zero =>
          rw [slotIdx_zero]
          omega
        | succ k' =>
          have h := hni k' (by omega)
          rw [slotIdx_mk, hshift k'] at h
          exact h


/-- A state whose slots are all vacant and whose counters are zero is exactly
a freshly constructed queue. -/
theorem mk_eq_new {T : Type} {C : Nat} (d : List (Option T)) (hlen : d.length = C)
    (h : ∀ i, i < C → d.get? i = some none) :
    (ArrayQueue.mk d 0 0 0 : ArrayQueue T C) = ArrayQueue.new T C := by
  unfold ArrayQueue.new
  congr 1
  apply List.ext
  intro i
  by_cases hi : i < C
  · rw [h i hi, get?_replicate, if_pos hi]
  · rw [List.get?_eq_none.mpr (by omega), get?_replicate, if_neg hi]

/-- `clear` on a non-empty queue destroys the live slots (and only them), in
FIFO order, and resets the queue to the freshly-constructed state. -/
theorem clear_spec {T : Type} {C : Nat} (q : ArrayQueue T C) (L : List T)
    (hInv : q.Inv L) (hpos : 0 < q.len) :
    ∃ ps, q.clear = some (ps, ArrayQueue.new T C) ∧
      ps.map Prod.fst = (List.range q.len).map q.slotIdx ∧
      ps.map Prod.snd = L := by
  obtain ⟨hdl, hlenL, hlen, hhead, htail, hposh, hmod, hlive, hvac⟩ := hInv
  have hC : 0 < C := by omega
  have hh0 : 0 < q.head := hposh hpos
  have hne : ¬ q.isEmpty = true := by
    simp only [ArrayQueue.isEmpty, beq_iff_eq]
    omega
  have h5 := modCases5 (show q.head ≤ C + C by omega)
    (show q.tail + q.len ≤ C + C by omega) hmod
  by_cases hth : q.tail < q.head
  · -- Non-wrapped: destroy `[tail, head) = [tail, tail+len)`; the second loop
    -- is skipped because `tail >= head` fails.
    have hhe : q.head = q.tail + q.len := by rcases h5 with h|h|h|h|h <;> omega
    have htmod : q.tail % C = q.tail := Nat.mod_eq_of_lt (by omega)
    have hslot : ∀ k, k < q.len → q.slotIdx k = q.tail + k := by
      intro k hk
      unfold ArrayQueue.slotIdx
      rw [htmod]
      exact Nat.mod_eq_of_lt (by omega)
    obtain ⟨ps, d', hdrop, hfst, hsnd, hd'len, hget⟩ :=
      dropRange_spec q.len q.data q.tail L hlenL.symm
        (by
          intro j hj
          have h := hlive j hj
          rwa [hslot j hj] at h)
    refine ⟨ps, ?_, ?_, hsnd⟩
    · simp only [ArrayQueue.clear]
      rw [if_neg hne,
        show (if q.tail < q.head then q.head else C) - q.tail = q.len by
          rw [if_pos hth]; omega,
        hdrop]
      dsimp only
      rw [if_neg (by omega : ¬ q.head ≤ q.tail)]
      refine congrArg some (congrArg (fun x => (ps, x)) ?_)
      refine mk_eq_new d' (hd'len.trans hdl) ?_
      intro i hi
      rw [hget i]
      by_cases hin : q.tail ≤ i ∧ i < q.tail + q.len
      · rw [if_pos hin]
      · rw [if_neg hin]
        refine hvac i hi ?_
        intro k hk
        rw [hslot k hk]
        omega
    · rw [hfst]
      symm
      refine range_map_eq (by rw [List.length_range']) ?_
      intro i hi
      rw [get?_range', if_pos hi, hslot i hi]
  · -- Wrapped or boundary: destroy `[tail, C)` then `[0, head)`.
    have hht : q.head ≤ q.tail := by omega
    by_cases htc : q.tail = C
    · -- `tail = C`: the first loop is empty, the live region is `[0, head)`.
      have hhl : q.head = q.len := by rcases h5 with h|h|h|h|h <;> omega
      have hslot : ∀ k, k < q.len → q.slotIdx k = k := by
        intro k hk
        unfold ArrayQueue.slotIdx
        rw [htc, Nat.mod_self, Nat.zero_add]
        exact Nat.mod_eq_of_lt (by omega)
      obtain ⟨ps, d', hdrop, hfst, hsnd, hd'len, hget⟩ :=
        dropRange_spec q.head q.data 0 L (by omega)
          (by
            intro j hj
            have h := hlive j (by omega)
            rw [hslot j (by omega)] at h
            simpa using h)
      refine ⟨[] ++ ps, ?_, ?_, by rw [List.map_append, hsnd]; rfl⟩
      · simp only [ArrayQueue.clear]
        rw [if_neg hne,
          show (if q.tail < q.head then q.head else C) - q.tail = 0 by
            rw [if_neg hth]; omega]
        show (match dropRange q.data q.tail 0 with
          | some (ps1, d1) =>
            if q.head ≤ q.tail then
              match dropRange d1 0 q.head with
              | some (ps2, d2) => some (ps1 ++ ps2, ArrayQueue.mk d2 0 0 0)
              | none => none
            else
              some (ps1, ArrayQueue.mk d1 0 0 0)
          | none => none) = some ([] ++ ps, ArrayQueue.new T C)
        rw [show dropRange q.data q.tail 0 = some ([], q.data) from rfl]
        dsimp only
        rw [if_pos hht, hdrop]
        dsimp only
        refine congrArg some (congrArg (fun x => ([] ++ ps, x)) ?_)
        refine mk_eq_new d' (hd'len.trans hdl) ?_
        intro i hi
        rw [hget i]
        by_cases hin : 0 ≤ i ∧ i < 0 + q.head
        · rw [if_pos hin]
        · rw [if_neg hin]
          refine hvac i hi ?_
          intro k hk
          rw [hslot k hk]
          omega
      · rw [List.map_append, hfst]
        show List.range' 0 q.head = (List.range q.len).map q.slotIdx
        symm
        refine range_map_eq (by rw [List.length_range']; omega) ?_
        intro i hi
        rw [get?_range', if_pos (by omega), hslot i hi, Nat.zero_add]
    · -- `head ≤ tail < C`: destroy `[tail, C)` then `[0, head)`.
      have htlt : q.tail < C := by omega
      have hkey : q.tail + q.len = q.head + C := by rcases h5 with h|h|h|h|h <;> omega
      have htmod : q.tail % C = q.tail := Nat.mod_eq_of_lt htlt
      have hn1 : C - q.tail ≤ q.len := by omega
      have hslot1 : ∀ k, k < C - q.tail → q.slotIdx k = q.tail + k := by
        intro k hk
        unfold ArrayQueue.slotIdx
        rw [htmod]
        exact Nat.mod_eq_of_lt (by omega)
      have hslot2 : ∀ k, C - q.tail ≤ k → k < q.len → q.slotIdx k = k - (C - q.tail) := by
        intro k hk1 hk2
        unfold ArrayQueue.slotIdx
        rw [htmod, show q.tail + k = C + (k - (C - q.tail)) by omega, Nat.add_mod_left]
        exact Nat.mod_eq_of_lt (by omega)
      obtain ⟨ps1, d1, hdrop1, hfst1, hsnd1, hd1len, hget1⟩ :=
        dropRange_spec (C - q.tail) q.data q.tail (L.take (C - q.tail))
          (by rw [List.length_take]; omega)
          (by
            intro j hj
            have h := hlive j (by omega)
            rw [hslot1 j hj] at h
            rwa [List.get?_take hj])
      obtain ⟨ps2, d2, hdrop2, hfst2, hsnd2, hd2len, hget2⟩ :=
        dropRange_spec q.head d1 0 (L.drop (C - q.tail))
          (by rw [List.length_drop]; omega)
          (by
            intro j hj
            have h := hlive (C - q.tail + j) (by omega)
            rw [hslot2 (C - q.tail + j) (by omega) (by omega),
              show C - q.tail + j - (C - q.tail) = j by omega] at h
            rw [Nat.zero_add, hget1 j, if_neg (by omega), h, List.get?_drop])
      refine ⟨ps1 ++ ps2, ?_, ?_, ?_⟩
      · simp only [ArrayQueue.clear]
        rw [if_neg hne,
          show (if q.tail < q.head then q.head else C) - q.tail = C - q.tail by
            rw [if_neg hth],
          hdrop1]
        dsimp only
        rw [if_pos hht, hdrop2]
        dsimp only
        refine congrArg some (congrArg (fun x => (ps1 ++ ps2, x)) ?_)
        refine mk_eq_new d2 (hd2len.trans (hd1len.trans hdl)) ?_
        intro i hi
        rw [hget2 i]
        by_cases hin2 : 0 ≤ i ∧ i < 0 + q.head
        · rw [if_pos hin2]
        · rw [if_neg hin2, hget1 i]
          by_cases hin1 : q.tail ≤ i ∧ i < q.tail + (C - q.tail)
          · rw [if_pos hin1]
          · rw [if_neg hin1]
            refine hvac i hi ?_
            intro k hk
            rcases Nat.lt_or_ge k (C - q.tail) with hk1 | hk1
            · rw [hslot1 k hk1]
              omega
            · rw [hslot2 k hk1 hk]
              omega
      · rw [List.map_append, hfst1, hfst2]
        symm
        refine range_map_eq
          (by rw [List.length_append, List.length_range', List.length_range']; omega) ?_
        intro i hi
        rcases Nat.lt_or_ge i (C - q.tail) with hi1 | hi1
        · rw [List.get?_append (by rw [List.length_range']; exact hi1), get?_range',
            if_pos hi1, hslot1 i hi1]
        · rw [List.get?_append_right (by rw [List.length_range']; exact hi1),
            List.length_range', get?_range', if_pos (by omega), hslot2 i hi1 hi,
            Nat.zero_add]
      · rw [List.map_append, hsnd1, hsnd2, List.take_append_drop]

/-- Under the invariant, the live-slot contents in FIFO order are exactly the
abstract list. -/
theorem liveList_eq {T : Type} {C : Nat} (q : ArrayQueue T C) (L : List T)
    (hInv : q.Inv L) : q.liveList = L.map some := by
  obtain ⟨-, hlenL, -, -, -, -, -, hlive, -⟩ := hInv
  unfold ArrayQueue.liveList
  rw [hlenL, ← range_map_get? L]
  refine List.map_congr_left ?_
  intro k hk
  rw [List.mem_range] at hk
  rw [hlive k (by omega)]
  rfl

/-- Every reachable state satisfies the representation invariant for some
abstract list of live values. -/
theorem reachable_inv {T : Type} {C : Nat} (q : ArrayQueue T C)
    (h : Reachable T C q) : ∃ L, q.Inv L := by
  induction h with
  | new => exact ⟨[], inv_new T C⟩
  | push q v r q' hR hstep ih =>
    obtain ⟨L, hInv⟩ := ih
    by_cases hfull : q.len = C
    · rw [push_full q v hfull] at hstep
      simp only [Option.some.injEq, Prod.mk.injEq] at hstep
      obtain ⟨-, h2⟩ := hstep
      subst h2
      exact ⟨L, hInv⟩
    · have hlt : q.len < C := lt_of_le_of_ne hInv.2.2.1 hfull
      obtain ⟨q₁, hpush, hInv'⟩ := push_spec q L v hInv hlt
      rw [hpush] at hstep
      simp only [Option.some.injEq, Prod.mk.injEq] at hstep
      obtain ⟨-, h2⟩ := hstep
      subst h2
      exact ⟨L ++ [v], hInv'⟩
  | pop q r q' hR hstep ih =>
    obtain ⟨L, hInv⟩ := ih
    by_cases hz : q.len = 0
    · rw [pop_empty q hz] at hstep
      simp only [Option.some.injEq, Prod.mk.injEq] at hstep
      obtain ⟨-, h2⟩ := hstep
      subst h2
      exact ⟨L, hInv⟩
    · cases L with
      | nil =>
        have := hInv.2.1
        simp at this
        omega
      | cons v L' =>
        obtain ⟨q₁, hpop, hInv'⟩ := pop_spec q v L' hInv
        rw [hpop] at hstep
        simp only [Option.some.injEq, Prod.mk.injEq] at hstep
        obtain ⟨-, h2⟩ := hstep
        subst h2
        exact ⟨L', hInv'⟩
  | clear q ps q' hR hstep ih =>
    obtain ⟨L, hInv⟩ := ih
    by_cases hz : q.len = 0
    · rw [clear_empty q hz] at hstep
      simp only [Option.some.injEq, Prod.mk.injEq] at hstep
      obtain ⟨-, h2⟩ := hstep
      subst h2
      exact ⟨L, hInv⟩
    · obtain ⟨ps', hclear, -, -⟩ := clear_spec q L hInv (by omega)
      rw [hclear] at hstep
      simp only [Option.some.injEq, Prod.mk.injEq] at hstep
      obtain ⟨-, h2⟩ := hstep
      subst h2
      exact ⟨[], inv_new T C⟩

/-- `pushAll` succeeding means every push succeeded, appending the values. -/
theorem pushAll_sound {T : Type} {C : Nat} :
    ∀ (vs : List T) (q q' : ArrayQueue T C) (L : List T),
    q.Inv L → ArrayQueue.pushAll q vs = some q' → q'.Inv (L ++ vs)
  | [], q, q', L, hInv, hp => by
    simp only [ArrayQueue.pushAll, Option.some.injEq] at hp
    subst hp
    simpa using hInv
  | v :: vs, q, q', L, hInv, hp => by
    by_cases hfull : q.len = C
    · simp only [ArrayQueue.pushAll, push_full q v hfull] at hp
      exact Option.noConfusion hp
    · have hlt : q.len < C := lt_of_le_of_ne hInv.2.2.1 hfull
      obtain ⟨q₁, hpush, hInv'⟩ := push_spec q L v hInv hlt
      simp only [ArrayQueue.pushAll, hpush] at hp
      have h := pushAll_sound vs q₁ q' (L ++ [v]) hInv' hp
      rwa [List.append_assoc] at h

/-- Popping `n ≤ length` times returns the first `n` abstract values in order. -/
theorem popN_spec {T : Type} {C : Nat} :
    ∀ (n : Nat) (q : ArrayQueue T C) (L : List T), q.Inv L → n ≤ L.length →
    ∃ q', ArrayQueue.popN q n = some (L.take n, q') ∧ q'.Inv (L.drop n)
  | 0, q, L, hInv, _ => ⟨q, rfl, hInv⟩
  | n + 1, q, L, hInv, hle => by
    cases L with
    | nil => simp at hle
    | cons v L' =>
      obtain ⟨q₁, hpop, hInv'⟩ := pop_spec q v L' hInv
      obtain ⟨q', hpopN, hInv''⟩ := popN_spec n q₁ L' hInv' (by simpa using hle)
      refine ⟨q', ?_, hInv''⟩
      simp only [ArrayQueue.popN, hpop, hpopN]
      rfl

/-- Running a mixed sequence of operations preserves the invariant and the
length bookkeeping: final length + successful pops = initial length +
successful pushes. -/
theorem runOps_spec {T : Type} {C : Nat} :
    ∀ (ops : List (Op T)) (q q' : ArrayQueue T C) (L : List T) (N M : Nat),
    q.Inv L → runOps q ops = some (q', N, M) →
    ∃ L', q'.Inv L' ∧ L'.length + M = L.length + N
  | [], q, q', L, N, M, hInv, hrun => by
    simp only [runOps, Option.some.injEq, Prod.mk.injEq] at hrun
    obtain ⟨h1, h2, h3⟩ := hrun
    subst h1
    exact ⟨L, hInv, by omega⟩
  | Op.push v :: ops, q, q', L, N, M, hInv, hrun => by
    by_cases hfull : q.len = C
    · simp only [runOps, push_full q v hfull] at hrun
      obtain ⟨L', h1, h2⟩ := runOps_spec ops q q' L N M hInv hrun
      exact ⟨L', h1, by omega⟩
    · have hlt : q.len < C := lt_of_le_of_ne hInv.2.2.1 hfull
      obtain ⟨q₁, hpush, hInv'⟩ := push_spec q L v hInv hlt
      simp only [runOps, hpush] at hrun
      rw [Option.map_eq_some'] at hrun
      obtain ⟨⟨q₂, N₀, M₀⟩, hr, heq⟩ := hrun
      simp only [Prod.mk.injEq] at heq
      obtain ⟨h1, h2, h3⟩ := heq
      subst h1
      obtain ⟨L', hI, hlen⟩ := runOps_spec ops q₁ q₂ (L ++ [v]) N₀ M₀ hInv' hr
      refine ⟨L', hI, ?_⟩
      rw [List.length_append] at hlen
      simp only [List.length_singleton] at hlen
      omega
  | Op.pop :: ops, q, q', L, N, M, hInv, hrun => by
    by_cases hz : q.len = 0
    · simp only [runOps, pop_empty q hz] at hrun
      obtain ⟨L', h1, h2⟩ := runOps_spec ops q q' L N M hInv hrun
      exact ⟨L', h1, by omega⟩
    · cases L with
      | nil =>
        have := hInv.2.1
        simp at this
        omega
      | cons v L' =>
        obtain ⟨q₁, hpop, hInv'⟩ := pop_spec q v L' hInv
        simp only [runOps, hpop] at hrun
        rw [Option.map_eq_some'] at hrun
        obtain ⟨⟨q₂, N₀, M₀⟩, hr, heq⟩ := hrun
        simp only [Prod.mk.injEq] at heq
        obtain ⟨h1, h2, h3⟩ := heq
        subst h1
        obtain ⟨L₂, hI, hlen⟩ := runOps_spec ops q₁ q₂ L' N₀ M₀ hInv' hr
        refine ⟨L₂, hI, ?_⟩
        simp only [List.length_cons]
        omega

/-- In a non-empty invariant state with `tail < head`, the live slots are the
single in-bounds interval `[tail, tail + len)` (and `head = tail + len`). -/
theorem slots_nonwrapped {T : Type} {C : Nat} (q : ArrayQueue T C) (L : List T)
    (hInv : q.Inv L) (hpos : 0 < q.len) (hth : q.tail < q.head) :
    (List.range q.len).map q.slotIdx = List.range' q.tail q.len ∧
    q.tail + q.len ≤ C := by
  obtain ⟨hdl, hlenL, hlen, hhead, htail, hposh, hmod, hlive, hvac⟩ := hInv
  have hC : 0 < C := by omega
  have h5 := modCases5 (show q.head ≤ C + C by omega)
    (show q.tail + q.len ≤ C + C by omega) hmod
  have hhe : q.head = q.tail + q.len := by rcases h5 with h|h|h|h|h <;> omega
  have hslot : ∀ k, k < q.len → q.slotIdx k = q.tail + k := by
    intro k hk
    unfold ArrayQueue.slotIdx
    rw [Nat.mod_add_mod]
    exact Nat.mod_eq_of_lt (by omega)
  refine ⟨?_, by omega⟩
  refine range_map_eq (by rw [List.length_range']) ?_
  intro i hi
  rw [get?_range', if_pos hi, hslot i hi]

/-- In a non-empty invariant state with `head ≤ tail` (wrapped, or the full
boundary `head = tail`), the live slots are `[tail, C) ++ [0, head)`. -/
theorem slots_wrapped {T : Type} {C : Nat} (q : ArrayQueue T C) (L : List T)
    (hInv : q.Inv L) (hpos : 0 < q.len) (hht : q.head ≤ q.tail) :
    (List.range q.len).map q.slotIdx =
      List.range' q.tail (C - q.tail) ++ List.range' 0 q.head := by
  obtain ⟨hdl, hlenL, hlen, hhead, htail, hposh, hmod, hlive, hvac⟩ := hInv
  have hC : 0 < C := by omega
  have hh0 : 0 < q.head := hposh hpos
  have h5 := modCases5 (show q.head ≤ C + C by omega)
    (show q.tail + q.len ≤ C + C by omega) hmod
  have hkey : q.tail + q.len = q.head + C := by rcases h5 with h|h|h|h|h <;> omega
  have hslot1 : ∀ k, k < C - q.tail → q.slotIdx k = q.tail + k := by
    intro k hk
    unfold ArrayQueue.slotIdx
    rw [Nat.mod_add_mod]
    exact Nat.mod_eq_of_lt (by omega)
  have hslot2 : ∀ k, C - q.tail ≤ k → k < q.len → q.slotIdx k = k - (C - q.tail) := by
    intro k hk1 hk2
    unfold ArrayQueue.slotIdx
    rw [Nat.mod_add_mod, show q.tail + k = C + (k - (C - q.tail)) by omega,
      Nat.add_mod_left]
    exact Nat.mod_eq_of_lt (by omega)
  refine range_map_eq
    (by rw [List.length_append, List.length_range', List.length_range']; omega) ?_
  intro i hi
  rcases Nat.lt_or_ge i (C - q.tail) with hi1 | hi1
  · rw [List.get?_append (by rw [List.length_range']; exact hi1), get?_range',
      if_pos hi1, hslot1 i hi1]
  · rw [List.get?_append_right (by rw [List.length_range']; exact hi1),
      List.length_range', get?_range', if_pos (by omega), hslot2 i hi1 hi,
      Nat.zero_add]

/-! ### Concrete reachable states used as witnesses -/

/-- Capacity-2 queue after `push 1`. -/
def q1p : ArrayQueue Nat 2 :=
  ArrayQueue.mk [some 1, none] 1 0 1

/-- Capacity-2 queue after `push 1, push 2, pop, push 3`: wrapped state with
`head = tail = 1`, `len = 2` (full). -/
def qWrap : ArrayQueue Nat 2 :=
  ArrayQueue.mk [some 3, some 2] 1 1 2

/-- Capacity-2 queue after `push 1, push 2, pop, pop`: empty with
`head = tail = 2`. -/
def qEmpty22 : ArrayQueue Nat 2 :=
  ArrayQueue.mk [none, none] 2 2 0

/-- Capacity-1 queue after `push 5, pop, push 7`: full with `head = tail = 1`. -/
def qFull11 : ArrayQueue Nat 1 :=
  ArrayQueue.mk [some 7] 1 1 1

theorem reach_q1p : Reachable Nat 2 q1p :=
  Reachable.push (ArrayQueue.new Nat 2) 1 (Except.ok ()) q1p Reachable.new rfl

theorem reach_q12 : Reachable Nat 2 (ArrayQueue.mk [some 1, some 2] 2 0 2) :=
  Reachable.push q1p 2 (Except.ok ()) (ArrayQueue.mk [some 1, some 2] 2 0 2)
    reach_q1p rfl

theorem reach_q2 : Reachable Nat 2 (ArrayQueue.mk [none, some 2] 2 1 1) :=
  Reachable.pop (ArrayQueue.mk [some 1, some 2] 2 0 2) (some 1)
    (ArrayQueue.mk [none, some 2] 2 1 1) reach_q12 rfl

theorem reach_qWrap : Reachable Nat 2 qWrap :=
  Reachable.push (ArrayQueue.mk [none, some 2] 2 1 1) 3 (Except.ok ()) qWrap
    reach_q2 rfl

theorem reach_qEmpty22 : Reachable Nat 2 qEmpty22 :=
  Reachable.pop (ArrayQueue.mk [none, some 2] 2 1 1) (some 2) qEmpty22 reach_q2 rfl

theorem reach_qFull11 : Reachable Nat 1 qFull11 :=
  Reachable.push (ArrayQueue.mk [none] 1 1 0) 7 (Except.ok ()) qFull11
    (Reachable.pop (ArrayQueue.mk [some 5] 1 0 1) (some 5)
      (ArrayQueue.mk [none] 1 1 0)
      (Reachable.push (ArrayQueue.new Nat 1) 5 (Except.ok ())
        (ArrayQueue.mk [some 5] 1 0 1) Reachable.new rfl) rfl) rfl

/-! ### The claims -/

/-- Claim C1: FIFO order. Starting from a freshly constructed buffer, if a
sequence of values is pushed with every push succeeding, then performing the
same number of pops returns exactly those values in the order pushed. -/
theorem claim_c1_fifo_order {T : Type} {C : Nat} (vs : List T) (q : ArrayQueue T C)
    (h : ArrayQueue.pushAll (ArrayQueue.new T C) vs = some q) :
    ∃ q', ArrayQueue.popN q vs.length = some (vs, q') := by
  have hInv : q.Inv ([] ++ vs) :=
    pushAll_sound vs (ArrayQueue.new T C) q [] (inv_new T C) h
  rw [List.nil_append] at hInv
  obtain ⟨q', hpop, -⟩ := popN_spec vs.length q vs hInv (le_refl _)
  rw [List.take_length] at hpop
  exact ⟨q', hpop⟩

/-- Witness for C1 at capacity 3 with the pushed sequence `[1, 2, 3]`. -/
theorem claim_c1_witness :
    ∃ q', ArrayQueue.popN (ArrayQueue.mk [some 1, some 2, some 3] 3 0 3 :
      ArrayQueue Nat 3) 3 = some ([1, 2, 3], q') :=
  claim_c1_fifo_order [1, 2, 3] (ArrayQueue.mk [some 1, some 2, some 3] 3 0 3) rfl

/-- Claim C3: pushing onto a full buffer (`len = C`) returns `Err` carrying
exactly the pushed value, with the entire buffer state unchanged. -/
theorem claim_c3_push_full_rejects {T : Type} {C : Nat} (q : ArrayQueue T C)
    (v : T) (h : q.len = C) : q.push v = some (Except.error v, q) :=
  push_full q v h

/-- Witness for C3 at a concrete full capacity-1 state. -/
theorem claim_c3_witness :
    (ArrayQueue.mk [some 5] 1 0 1 : ArrayQueue Nat 1).push 7 =
      some (Except.error 7, ArrayQueue.mk [some 5] 1 0 1) :=
  claim_c3_push_full_rejects (ArrayQueue.mk [some 5] 1 0 1) 7 rfl

/-- Claim C4: popping an empty buffer (`len = 0`) returns `None` with the
entire buffer state unchanged. -/
theorem claim_c4_pop_empty_stable {T : Type} {C : Nat} (q : ArrayQueue T C)
    (h : q.len = 0) : q.pop = some (none, q) :=
  pop_empty q h

/-- Witness for C4 at a freshly constructed capacity-2 queue. -/
theorem claim_c4_witness :
    (ArrayQueue.new Nat 2).pop = some (none, ArrayQueue.new Nat 2) :=
  claim_c4_pop_empty_stable (ArrayQueue.new Nat 2) rfl

/-- Claim C6: in every reachable state (capacity at least 1),
`head % C = tail % C` holds exactly when `len = 0` or `len = C`, and
`head ≡ tail + len (mod C)`. -/
theorem claim_c6_head_tail_congruence {T : Type} {C : Nat} (q : ArrayQueue T C)
    (hC : 0 < C) (h : Reachable T C q) :
    ((q.head % C = q.tail % C) ↔ (q.len = 0 ∨ q.len = C)) ∧
    q.head % C = (q.tail + q.len) % C := by
  obtain ⟨L, hInv⟩ := reachable_inv q h
  obtain ⟨-, -, hlen, -, htail, -, hmod, -, -⟩ := hInv
  refine ⟨⟨?_, ?_⟩, hmod⟩
  · intro he
    have h2 : q.tail % C = (q.tail + q.len) % C := he.symm.trans hmod
    have h5 := modCases5 (show q.tail ≤ C + C by omega)
      (show q.tail + q.len ≤ C + C by omega) h2
    rcases h5 with h|h|h|h|h <;> omega
  · intro he
    rcases he with he | he
    · rw [hmod, he, Nat.add_zero]
    · rw [hmod, he, Nat.add_mod_right]

/-- Witness for C6 at the reachable capacity-2 state after a single push. -/
theorem claim_c6_witness :
    ((q1p.head % 2 = q1p.tail % 2) ↔ (q1p.len = 0 ∨ q1p.len = 2)) ∧
    q1p.head % 2 = (q1p.tail + q1p.len) % 2 :=
  claim_c6_head_tail_congruence q1p (by omega) reach_q1p

/-- Claim C7: length accounting. Running any interleaved sequence of
operations from a fresh buffer with `N` successful pushes and `M` successful
pops yields `len = N - M` (and `M ≤ N`). -/
theorem claim_c7_length_accounting {T : Type} {C : Nat} (ops : List (Op T))
    (q' : ArrayQueue T C) (N M : Nat)
    (h : runOps (ArrayQueue.new T C) ops = some (q', N, M)) :
    M ≤ N ∧ q'.len = N - M := by
  obtain ⟨L', hI, hlen⟩ := runOps_spec ops (ArrayQueue.new T C) q' [] N M
    (inv_new T C) h
  have h2 := hI.2.1
  simp only [List.length_nil] at hlen
  constructor <;> omega

/-- Witness for C7: `push 1, push 2, pop, push 3` has 3 successful pushes and
1 successful pop, leaving length 2. -/
theorem claim_c7_witness : 1 ≤ 3 ∧ qWrap.len = 3 - 1 :=
  claim_c7_length_accounting [Op.push 1, Op.push 2, Op.pop, Op.push 3] qWrap 3 1
    (by rfl)

/-- Claim C8: zero-capacity buffer: in every reachable state, `push` rejects
returning the value unchanged, `pop` returns the empty marker, and the length
is 0. -/
theorem claim_c8_zero_capacity {T : Type} (q : ArrayQueue T 0) (v : T)
    (h : Reachable T 0 q) :
    q.len = 0 ∧ q.push v = some (Except.error v, q) ∧ q.pop = some (none, q) := by
  obtain ⟨L, hInv⟩ := reachable_inv q h
  have hz : q.len = 0 := by
    have := hInv.2.2.1
    omega
  exact ⟨hz, push_full q v hz, pop_empty q hz⟩

/-- Witness for C8 at the freshly constructed zero-capacity queue. -/
theorem claim_c8_witness :
    (ArrayQueue.new Nat 0).len = 0 ∧
    (ArrayQueue.new Nat 0).push 7 = some (Except.error 7, ArrayQueue.new Nat 0) ∧
    (ArrayQueue.new Nat 0).pop = some (none, ArrayQueue.new Nat 0) :=
  claim_c8_zero_capacity (ArrayQueue.new Nat 0) 7 Reachable.new

/-- Claim C9: bounded-index invariant: in every reachable state the raw
`head` and `tail` counters never exceed the capacity. -/
theorem claim_c9_bounded_indices {T : Type} {C : Nat} (q : ArrayQueue T C)
    (h : Reachable T C q) : q.head ≤ C ∧ q.tail ≤ C := by
  obtain ⟨L, hInv⟩ := reachable_inv q h
  exact ⟨hInv.2.2.2.1, hInv.2.2.2.2.1⟩

/-- Witness for C9 at a reachable wrapped capacity-2 state. -/
theorem claim_c9_witness : qWrap.head ≤ 2 ∧ qWrap.tail ≤ 2 :=
  claim_c9_bounded_indices qWrap reach_qWrap

/-- Claim C10: panic freedom: from every reachable state, `push`, `pop` and
`clear` never crash (no out-of-bounds index, no modulo by zero, no access to
a vacant slot). -/
theorem claim_c10_panic_freedom {T : Type} {C : Nat} (q : ArrayQueue T C)
    (v : T) (h : Reachable T C q) :
    q.push v ≠ none ∧ q.pop ≠ none ∧ q.clear ≠ none := by
  obtain ⟨L, hInv⟩ := reachable_inv q h
  have hlenC := hInv.2.2.1
  refine ⟨?_, ?_, ?_⟩
  · by_cases hfull : q.len = C
    · rw [push_full q v hfull]
      exact Option.some_ne_none _
    · obtain ⟨q₁, hp, -⟩ := push_spec q L v hInv (by omega)
      rw [hp]
      exact Option.some_ne_none _
  · by_cases hz : q.len = 0
    · rw [pop_empty q hz]
      exact Option.some_ne_none _
    · cases L with
      | nil =>
        have := hInv.2.1
        simp at this
        omega
      | cons w L' =>
        obtain ⟨q₁, hp, -⟩ := pop_spec q w L' hInv
        rw [hp]
        exact Option.some_ne_none _
  · by_cases hz : q.len = 0
    · rw [clear_empty q hz]
      exact Option.some_ne_none _
    · obtain ⟨ps, hp, -, -⟩ := clear_spec q L hInv (by omega)
      rw [hp]
      exact Option.some_ne_none _

/-- Witness for C10 at a reachable capacity-2 state. -/
theorem claim_c10_witness :
    q1p.push 9 ≠ none ∧ q1p.pop ≠ none ∧ q1p.clear ≠ none :=
  claim_c10_panic_freedom q1p 9 reach_q1p

/-- Claim C2 counterexample: at the reachable empty capacity-2 state with
`head = tail = 2`, `clear()` returns early and leaves `head` and `tail` at 2,
so it does not leave the state with `head = tail = 0` as the claim asserts
for every reachable state. -/
theorem claim_c2_counterexample :
    Reachable Nat 2 qEmpty22 ∧
    ArrayQueue.clear qEmpty22 = some ([], qEmpty22) ∧
    qEmpty22.head ≠ 0 ∧ qEmpty22.tail ≠ 0 :=
  ⟨reach_qEmpty22, rfl, by decide, by decide⟩

/-- Claim C2 (amended): for every reachable state, `clear` succeeds, runs the
destructor of each currently live element exactly once (the destroyed
index/value pairs are exactly the live slots with their values, at pairwise
distinct indices; vacant slots are never destroyed), and leaves every slot
vacant with `len = 0`.  If the buffer was non-empty it also resets
`head = tail = 0` (the full fresh state); on an already-empty buffer it is a
no-op that keeps the current `head`/`tail` values.  The `Drop` implementation
is exactly `clear`. -/
theorem claim_c2_clear_amended {T : Type} {C : Nat} (q : ArrayQueue T C)
    (h : Reachable T C q) :
    ∃ ps q', q.clear = some (ps, q') ∧
      ps.map Prod.fst = (List.range q.len).map q.slotIdx ∧
      (ps.map Prod.fst).Nodup ∧
      ps.map (fun p => some p.2) = q.liveList ∧
      q'.len = 0 ∧
      (∀ i, i < C → q'.data.get? i = some none) ∧
      (0 < q.len → q' = ArrayQueue.new T C) ∧
      (q.len = 0 → q' = q) ∧
      q.drop = q.clear := by
  obtain ⟨L, hInv⟩ := reachable_inv q h
  have hlenL := hInv.2.1
  have hlenC := hInv.2.2.1
  have hvac := hInv.2.2.2.2.2.2.2.2
  have hlive := liveList_eq q L hInv
  have hnodup : ((List.range q.len).map q.slotIdx).Nodup := by
    refine List.Nodup.map_on ?_ (List.nodup_range q.len)
    intro x hx y hy hxy
    rw [List.mem_range] at hx hy
    exact slotIdx_inj q (by omega) (by omega) hxy
  by_cases hz : q.len = 0
  · refine ⟨[], q, clear_empty q hz, ?_, List.nodup_nil, ?_, hz, ?_,
      fun hpos => absurd hz (by omega), fun _ => rfl, rfl⟩
    · rw [hz]
      rfl
    · have hL : L = [] := List.length_eq_zero.mp (by omega)
      rw [hlive, hL]
      rfl
    · intro i hi
      exact hvac i hi (fun k hk => absurd hk (by omega))
  · obtain ⟨ps, hclear, hfst, hsnd⟩ := clear_spec q L hInv (by omega)
    refine ⟨ps, ArrayQueue.new T C, hclear, hfst, ?_, ?_, rfl, ?_, fun _ => rfl,
      fun hz' => absurd hz' hz, rfl⟩
    · rw [hfst]
      exact hnodup
    · rw [hlive, ← hsnd, List.map_map]
      rfl
    · intro i hi
      show (List.replicate C none).get? i = some none
      rw [get?_replicate, if_pos hi]

/-- Witness for the amended C2 at the reachable wrapped full capacity-2
state. -/
theorem claim_c2_witness :
    ∃ ps q', ArrayQueue.clear qWrap = some (ps, q') ∧
      ps.map Prod.fst = (List.range qWrap.len).map qWrap.slotIdx ∧
      (ps.map Prod.fst).Nodup ∧
      ps.map (fun p => some p.2) = qWrap.liveList ∧
      q'.len = 0 ∧
      (∀ i, i < 2 → q'.data.get? i = some none) ∧
      (0 < qWrap.len → q' = ArrayQueue.new Nat 2) ∧
      (qWrap.len = 0 → q' = qWrap) ∧
      qWrap.drop = qWrap.clear :=
  claim_c2_clear_amended qWrap reach_qWrap

/-- Claim C5 counterexample: the reachable capacity-1 state `qFull11` has
`tail = head = 1` and `len = 1`, so it satisfies the claim's non-wrapped
condition `tail ≤ head`, yet `clear` destroys slot `0` — a slot outside the
claimed range `[tail, tail+len) = [1, 2)` (as `0 < tail`), and the claimed
range itself is not within the array. -/
theorem claim_c5_counterexample :
    Reachable Nat 1 qFull11 ∧
    qFull11.tail ≤ qFull11.head ∧
    qFull11.len ≠ 0 ∧
    ArrayQueue.clear qFull11 = some ([(0, 7)], ArrayQueue.new Nat 1) ∧
    ¬ (qFull11.tail ≤ 0 ∧ 0 < qFull11.tail + qFull11.len) :=
  ⟨reach_qFull11, by decide, by decide, rfl, by decide⟩

/-- Claim C5 (amended): for every non-empty reachable state, if
`tail < head` (strictly) the live slots are the single in-bounds range
`[tail, tail+len)` and `clear` destroys exactly those slots; if `head ≤ tail`
(wrapped, including the boundary `tail = head`, which for a non-empty queue
means it is full) `clear` destroys exactly the slots `[tail, C) ++ [0, head)`. -/
theorem claim_c5_clear_geometry_amended {T : Type} {C : Nat} (q : ArrayQueue T C)
    (h : Reachable T C q) (hne : q.len ≠ 0) :
    ∃ ps, q.clear = some (ps, ArrayQueue.new T C) ∧
      (q.tail < q.head →
        ps.map Prod.fst = List.range' q.tail q.len ∧ q.tail + q.len ≤ C) ∧
      (q.head ≤ q.tail →
        ps.map Prod.fst = List.range' q.tail (C - q.tail) ++ List.range' 0 q.head) := by
  obtain ⟨L, hInv⟩ := reachable_inv q h
  obtain ⟨ps, hclear, hfst, -⟩ := clear_spec q L hInv (by omega)
  refine ⟨ps, hclear, ?_, ?_⟩
  · intro hth
    obtain ⟨he, hb⟩ := slots_nonwrapped q L hInv (by omega) hth
    exact ⟨hfst.trans he, hb⟩
  · intro hht
    exact hfst.trans (slots_wrapped q L hInv (by omega) hht)

/-- Witness for the amended C5 at the reachable wrapped full capacity-2
state. -/
theorem claim_c5_witness :
    ∃ ps, ArrayQueue.clear qWrap = some (ps, ArrayQueue.new Nat 2) ∧
      (qWrap.tail < qWrap.head →
        ps.map Prod.fst = List.range' qWrap.tail qWrap.len ∧
        qWrap.tail + qWrap.len ≤ 2) ∧
      (qWrap.head ≤ qWrap.tail →
        ps.map Prod.fst =
          List.range' qWrap.tail (2 - qWrap.tail) ++ List.range' 0 qWrap.head) :=
  claim_c5_clear_geometry_amended qWrap reach_qWrap (by decide)
